import Mathlib

/-
Verification development for a minimal scalar reverse-mode autodiff engine
(micrograd-style `Value` graph).

Embedding notes.  The Python engine builds a dynamic DAG of `Value` objects.
Nodes are embedded as entries of an arena (`Graph α` = list of nodes indexed
by `Nat`); object identity becomes the index.  Each `Value`'s captured
`_backward` closure is represented as a tagged variant (`Op`) carrying exactly
what the closure captured at construction time: the operand indices, the
constant exponent of a power node, and the forward value `t` / `s` captured by
`tanh` / `sigmoid`.  Float64 payloads are embedded as elements of an abstract
linear ordered field (instantiated at ℚ or ℝ below); `math.exp` and the float
power operator are external library primitives, passed in as `FloatOps`.
Graphs are always built monotonically (operands of a node are older, i.e.
smaller, indices), which the `WF` predicate records; the recursive
`buildTopo` of the source is embedded with a fuel argument that `WF` renders
irrelevant (proved below).
-/

set_option maxHeartbeats 1000000

namespace Micrograd

/-- Numeric primitives taken from the host math library: `exp` for
`math.exp`, and `fpow` for the float power operator used by `__pow__`. -/
structure FloatOps (α : Type) where
  exp : α → α
  fpow : α → α → α

/-- The backward closure of a node, as the tagged data it captured at
construction: operand indices, the constant exponent of a power node, and
the forward result captured by the `tanh` / `sigmoid` closures. -/
inductive Op (α : Type) where
  | leaf
  | add (a b : Nat)
  | mul (a b : Nat)
  | powc (a : Nat) (p : α)
  | expn (a : Nat)
  | tanhn (a : Nat) (t : α)
  | relun (a : Nat)
  | sigmoidn (a : Nat) (s : α)

/-- One `Value` object: `data`, `grad`, the `_backward` closure (`op`), the
`_prev` operand set (as a deduplicated index list), `_op` tag and `label`. -/
structure Node (α : Type) where
  data : α
  grad : α
  op : Op α
  prev : List Nat
  tag : String
  label : String

/-- The arena of all constructed `Value` objects; an index into it is a node. -/
abbrev Graph (α : Type) := List (Node α)

variable {α : Type} [LinearOrderedField α]

/-- Placeholder node returned for an out-of-range index (never hit on indices
that actually denote constructed nodes). -/
def defaultNode : Node α := ⟨0, 0, Op.leaf, [], "", ""⟩

/-- Node record at index `i`. -/
def nd (g : Graph α) (i : Nat) : Node α := g.getD i defaultNode

/-- Forward value (`.data`) of node `i`. -/
def dataOf (g : Graph α) (i : Nat) : α := (nd g i).data

/-- Gradient accumulator (`.grad`) of node `i`. -/
def gradOf (g : Graph α) (i : Nat) : α := (nd g i).grad

/-- Operand list (`._prev`) of node `i`. -/
def prevOf (g : Graph α) (i : Nat) : List Nat := (nd g i).prev

/-- Operand indices captured by a backward closure. -/
def opIds : Op α → List Nat
  | Op.leaf => []
  | Op.add a b => [a, b]
  | Op.mul a b => [a, b]
  | Op.powc a _ => [a]
  | Op.expn a => [a]
  | Op.tanhn a _ => [a]
  | Op.relun a => [a]
  | Op.sigmoidn a _ => [a]

/-- The `+=` mutation of a gradient accumulator: `nodes[i].grad += d`. -/
def updGrad (g : Graph α) (i : Nat) (d : α) : Graph α :=
  g.set i { nd g i with grad := (nd g i).grad + d }

/-- Plain assignment of a gradient accumulator: `nodes[i].grad = c`
(used only for the seed `self.grad = 1.0` of `backward`). -/
def setGrad (g : Graph α) (i : Nat) (c : α) : Graph α :=
  g.set i { nd g i with grad := c }

/-- Append a freshly constructed node; returns the new graph and the new
node's index. -/
def pushNode (g : Graph α) (n : Node α) : Graph α × Nat := (g ++ [n], g.length)

/-- Wrapping a raw number: `Value(data)` — a leaf with `grad = 0`, no
operands, and a no-op backward closure. -/
def mkValue (g : Graph α) (d : α) : Graph α × Nat :=
  pushNode g ⟨d, 0, Op.leaf, [], "", ""⟩

/-- An argument of an arithmetic dunder: either an existing `Value` (by
index) or a raw number. -/
inductive Arg (α : Type) where
  | node (i : Nat)
  | const (c : α)

/-- The coercion at the top of `__add__` / `__mul__`:
`other = other if isinstance(other, Value) else Value(other)`. -/
def coerceArg (g : Graph α) : Arg α → Graph α × Nat
  | Arg.node i => (g, i)
  | Arg.const c => mkValue g c

/-- The `_prev` set `set((self, other))` of a binary node, as a list. -/
def prevPair (a b : Nat) : List Nat := if a = b then [a] else [a, b]

/-- Embedding of `Value.__add__`. -/
def addV (g : Graph α) (x : Nat) (o : Arg α) : Graph α × Nat :=
  let p := coerceArg g o
  pushNode p.1 ⟨dataOf p.1 x + dataOf p.1 p.2, 0, Op.add x p.2, prevPair x p.2, "+", ""⟩

/-- Embedding of `Value.__mul__`. -/
def mulV (g : Graph α) (x : Nat) (o : Arg α) : Graph α × Nat :=
  let p := coerceArg g o
  pushNode p.1 ⟨dataOf p.1 x * dataOf p.1 p.2, 0, Op.mul x p.2, prevPair x p.2, "*", ""⟩

/-- Embedding of `Value.__pow__`: the `assert isinstance(other, (float, int))`
guard runs before anything else, so a node-valued exponent raises (the
`Except.error` case) with the graph returned untouched; a constant exponent
builds the power node. -/
def powV (m : FloatOps α) (g : Graph α) (x : Nat) (o : Arg α) :
    Graph α × Except String Nat :=
  match o with
  | Arg.node _ => (g, Except.error ("only supporting int/float powers for now"))
  | Arg.const p =>
    let q := pushNode g ⟨m.fpow (dataOf g x) p, 0, Op.powc x p, [x], "**", ""⟩
    (q.1, Except.ok q.2)

/-- Embedding of `Value.__neg__`: `self * -1`. -/
def negV (g : Graph α) (x : Nat) : Graph α × Nat := mulV g x (Arg.const (-1))

/-- Embedding of `Value.__sub__` on a node argument: `self + (-other)`. -/
def subVV (g : Graph α) (x y : Nat) : Graph α × Nat :=
  let p := negV g y
  addV p.1 x (Arg.node p.2)

/-- Embedding of `Value.__rsub__` (raw number `c` on the left of `-`): the
source returns `self + (-other)`, where `-other` is plain numeric negation
of `c` and `__add__` then wraps it as a leaf. -/
def rsubV (g : Graph α) (x : Nat) (c : α) : Graph α × Nat :=
  addV g x (Arg.const (-c))

/-- Embedding of `Value.relu`. -/
def reluV (g : Graph α) (x : Nat) : Graph α × Nat :=
  pushNode g ⟨if dataOf g x < 0 then 0 else dataOf g x, 0, Op.relun x, [x], "ReLU", ""⟩

/-- Embedding of `Value.tanh`: forward value `(exp(2x) - 1) / (exp(2x) + 1)`,
captured by the closure as `t`. -/
def tanhV (m : FloatOps α) (g : Graph α) (x : Nat) : Graph α × Nat :=
  let t := (m.exp (2 * dataOf g x) - 1) / (m.exp (2 * dataOf g x) + 1)
  pushNode g ⟨t, 0, Op.tanhn x t, [x], "tanh", ""⟩

/-- Embedding of `Value.sigmoid`: `x = -1.0 * self.data; s = 1 / (1 + exp x)`,
captured by the closure as `s`. -/
def sigmoidV (m : FloatOps α) (g : Graph α) (x : Nat) : Graph α × Nat :=
  let s := 1 / (1 + m.exp (-1 * dataOf g x))
  pushNode g ⟨s, 0, Op.sigmoidn x s, [x], "sigmoid", ""⟩

/-- Embedding of `Value.exp`. -/
def expV (m : FloatOps α) (g : Graph α) (x : Nat) : Graph α × Nat :=
  pushNode g ⟨m.exp (dataOf g x), 0, Op.expn x, [x], "exp", ""⟩

/-- Running the `_backward` closure of node `v`: distributes `v`'s
already-accumulated gradient to the operands' accumulators by `+=`, using
the local derivative of the producing operation, exactly as each closure in
the source reads its captured state at call time. -/
def runBwd (m : FloatOps α) (g : Graph α) (v : Nat) : Graph α :=
  match (nd g v).op with
  | Op.leaf => g
  | Op.add a b =>
    let g1 := updGrad g a (1 * gradOf g v)
    updGrad g1 b (1 * gradOf g1 v)
  | Op.mul a b =>
    let g1 := updGrad g a (dataOf g b * gradOf g v)
    updGrad g1 b (dataOf g1 a * gradOf g1 v)
  | Op.powc a p => updGrad g a (p * m.fpow (dataOf g a) (p - 1) * gradOf g v)
  | Op.expn a => updGrad g a (dataOf g v * gradOf g v)
  | Op.tanhn a t => updGrad g a ((1 - t ^ 2) * gradOf g v)
  | Op.relun a =>
    updGrad g a ((if 0 < dataOf g v then (1 : α) else 0) * gradOf g v)
  | Op.sigmoidn a s => updGrad g a (s * (1 - s) * gradOf g v)

/-- The recursive `buildTopo` of `Value.backward`, abstracted over the
children relation `ch` (instantiated with `prevOf g`) and supplied with
explicit fuel (the Python recursion needs none; well-formedness makes the
fuel irrelevant, see `dfsVisit_fuel`).  State is `(visited, topo)`: mark `v`
visited, recurse into its children, then append `v` to the post-order. -/
def dfsVisit (ch : Nat → List Nat) : Nat → Nat → List Nat × List Nat → List Nat × List Nat
  | 0, _, st => st
  | fuel + 1, v, st =>
    if v ∈ st.1 then st
    else
      let st2 := (ch v).foldl (fun s c => dfsVisit ch fuel c s) (v :: st.1, st.2)
      (st2.1, st2.2 ++ [v])

/-- The depth-first post-order of the sub-graph reachable from `root`. -/
def buildTopo (g : Graph α) (root : Nat) : List Nat :=
  (dfsVisit (prevOf g) (root + 1) root ([], [])).2

/-- Embedding of `Value.backward`: seed `self.grad = 1.0`, build the
post-order, then run every closure in reverse order. -/
def backward (m : FloatOps α) (g : Graph α) (root : Nat) : Graph α :=
  let g1 := setGrad g root 1
  (buildTopo g1 root).reverse.foldl (runBwd m) g1

/-- Well-formedness: graphs are built monotonically, so every operand index
(in `_prev` and in the captured closure) is strictly older than the node
itself.  Every graph produced by the constructors above satisfies this. -/
def WF (g : Graph α) : Prop :=
  ∀ v, v < g.length →
    (∀ c ∈ (nd g v).prev, c < v) ∧ (∀ c ∈ opIds (nd g v).op, c < v)

/-- Reachability of `u` from `v` through the children relation `ch`. -/
inductive ReachCh (ch : Nat → List Nat) : Nat → Nat → Prop where
  | refl (v : Nat) : ReachCh ch v v
  | step {v u c : Nat} : ReachCh ch v u → c ∈ ch u → ReachCh ch v c

/-- Reachability from `root` through operand edges: the sub-graph that
`backward` operates on. -/
def Reaches (g : Graph α) (r v : Nat) : Prop := ReachCh (prevOf g) r v

/-- The actual float primitives, embedded over ℝ: `math.exp` is the real
exponential and the float power operator is the real power. -/
noncomputable def mR : FloatOps ℝ := ⟨Real.exp, fun x p => Real.rpow x p⟩

/-! ### Basic index lemmas -/

theorem gd_append_lt {β : Type} (l l' : List β) (d : β) :
    ∀ n, n < l.length → (l ++ l').getD n d = l.getD n d := by
  induction l with
  | nil => intro n h; simp at h
  | cons a t ih =>
    intro n h
    cases n with
    | zero => rfl
    | succ k => simpa using ih k (by simpa using h)

theorem gd_append_ge {β : Type} (l l' : List β) (d : β) :
    ∀ n, l.length ≤ n → (l ++ l').getD n d = l'.getD (n - l.length) d := by
  induction l with
  | nil => intro n _; rfl
  | cons a t ih =>
    intro n h
    cases n with
    | zero => simp at h
    | succ k => simpa using ih k (by simpa using h)

theorem gd_set_ne {β : Type} (l : List β) (a d : β) :
    ∀ i j, i ≠ j → (l.set i a).getD j d = l.getD j d := by
  induction l with
  | nil => intro i j _; simp [List.set]
  | cons b t ih =>
    intro i j hij
    cases i with
    | zero =>
      cases j with
      | zero => exact absurd rfl hij
      | succ k => rfl
    | succ i' =>
      cases j with
      | zero => rfl
      | succ k => simpa using ih i' k (fun h => hij (by rw [h]))

theorem gd_set_self {β : Type} (l : List β) (a d : β) :
    ∀ i, i < l.length → (l.set i a).getD i d = a := by
  induction l with
  | nil => intro i h; simp at h
  | cons b t ih =>
    intro i h
    cases i with
    | zero => rfl
    | succ k => simpa using ih k (by simpa using h)

theorem gd_ge_len {β : Type} (l : List β) (d : β) :
    ∀ n, l.length ≤ n → l.getD n d = d := by
  induction l with
  | nil => intro n _; rfl
  | cons b t ih =>
    intro n h
    cases n with
    | zero => simp at h
    | succ k => simpa using ih k (by simpa using h)

theorem nd_append_lt (g : Graph α) (l : Graph α) (i : Nat) (h : i < g.length) :
    nd (g ++ l) i = nd g i := gd_append_lt g l defaultNode i h

theorem nd_append_ge (g : Graph α) (l : Graph α) (i : Nat) (h : g.length ≤ i) :
    nd (g ++ l) i = nd l (i - g.length) := gd_append_ge g l defaultNode i h

theorem nd_set_ne (g : Graph α) (n : Node α) (i j : Nat) (h : i ≠ j) :
    nd (g.set i n) j = nd g j := gd_set_ne g n defaultNode i j h

theorem nd_set_self (g : Graph α) (n : Node α) (i : Nat) (h : i < g.length) :
    nd (g.set i n) i = n := gd_set_self g n defaultNode i h

theorem nd_ge_len (g : Graph α) (i : Nat) (h : g.length ≤ i) :
    nd g i = defaultNode := gd_ge_len g defaultNode i h

theorem set_ge_len {β : Type} (l : List β) (a : β) :
    ∀ i, l.length ≤ i → l.set i a = l := by
  induction l with
  | nil => intro i _; rfl
  | cons b t ih =>
    intro i h
    cases i with
    | zero => simp at h
    | succ k => simpa using ih k (by simpa using h)

theorem nd_snoc_self (g : Graph α) (n : Node α) : nd (g ++ [n]) g.length = n := by
  rw [nd_append_ge g [n] g.length (le_refl _), Nat.sub_self]; rfl

theorem dataOf_snoc_self (g : Graph α) (n : Node α) :
    dataOf (g ++ [n]) g.length = n.data := by rw [dataOf, nd_snoc_self]

/-- Forward value of a freshly pushed node. -/
theorem dataOf_pushNode (g : Graph α) (n : Node α) :
    dataOf (pushNode g n).1 (pushNode g n).2 = n.data := dataOf_snoc_self g n

theorem nd_app2_new (g : Graph α) (n1 n2 : Node α) :
    nd (g ++ [n1] ++ [n2]) (g.length + 1) = n2 := by
  have h : (g ++ [n1]).length = g.length + 1 := by simp
  rw [← h, nd_snoc_self]

theorem nd_app2_mid (g : Graph α) (n1 n2 : Node α) :
    nd (g ++ [n1] ++ [n2]) g.length = n1 := by
  rw [nd_append_lt _ _ _ (by simp), nd_snoc_self]

theorem nd_app2_lt (g : Graph α) (n1 n2 : Node α) (x : Nat) (hx : x < g.length) :
    nd (g ++ [n1] ++ [n2]) x = nd g x := by
  rw [nd_append_lt _ _ _ (by simp; omega), nd_append_lt _ _ _ hx]

/-! ### Effect of the gradient mutations on node fields -/

theorem updGrad_length (g : Graph α) (i : Nat) (d : α) :
    (updGrad g i d).length = g.length := by simp [updGrad]

theorem setGrad_length (g : Graph α) (i : Nat) (c : α) :
    (setGrad g i c).length = g.length := by simp [setGrad]

theorem nd_updGrad_ne (g : Graph α) (i j : Nat) (d : α) (h : i ≠ j) :
    nd (updGrad g i d) j = nd g j := nd_set_ne g _ i j h

theorem gradOf_updGrad_self (g : Graph α) (i : Nat) (d : α) (h : i < g.length) :
    gradOf (updGrad g i d) i = gradOf g i + d := by
  rw [gradOf, updGrad, nd_set_self _ _ _ h]; rfl

theorem gradOf_updGrad_ne (g : Graph α) (i j : Nat) (d : α) (h : i ≠ j) :
    gradOf (updGrad g i d) j = gradOf g j := by
  rw [gradOf, nd_updGrad_ne g i j d h, gradOf]

theorem nd_updGrad_data (g : Graph α) (i j : Nat) (d : α) :
    dataOf (updGrad g i d) j = dataOf g j := by
  rcases eq_or_ne i j with h | h
  · rcases lt_or_le i g.length with hl | hl
    · rw [← h, dataOf, updGrad, nd_set_self _ _ _ hl]; rfl
    · rw [dataOf, updGrad, set_ge_len _ _ _ hl, dataOf]
  · rw [dataOf, nd_updGrad_ne g i j d h, dataOf]

theorem nd_updGrad_op (g : Graph α) (i j : Nat) (d : α) :
    (nd (updGrad g i d) j).op = (nd g j).op := by
  rcases eq_or_ne i j with h | h
  · rcases lt_or_le i g.length with hl | hl
    · rw [← h, updGrad, nd_set_self _ _ _ hl]
    · rw [updGrad, set_ge_len _ _ _ hl]
  · rw [nd_updGrad_ne g i j d h]

theorem nd_updGrad_prev (g : Graph α) (i j : Nat) (d : α) :
    prevOf (updGrad g i d) j = prevOf g j := by
  rcases eq_or_ne i j with h | h
  · rcases lt_or_le i g.length with hl | hl
    · rw [← h, prevOf, updGrad, nd_set_self _ _ _ hl]; rfl
    · rw [prevOf, updGrad, set_ge_len _ _ _ hl, prevOf]
  · rw [prevOf, nd_updGrad_ne g i j d h, prevOf]

theorem nd_setGrad_ne (g : Graph α) (i j : Nat) (c : α) (h : i ≠ j) :
    nd (setGrad g i c) j = nd g j := nd_set_ne g _ i j h

theorem gradOf_setGrad_self (g : Graph α) (i : Nat) (c : α) (h : i < g.length) :
    gradOf (setGrad g i c) i = c := by
  rw [gradOf, setGrad, nd_set_self _ _ _ h]

theorem gradOf_setGrad_ne (g : Graph α) (i j : Nat) (c : α) (h : i ≠ j) :
    gradOf (setGrad g i c) j = gradOf g j := by
  rw [gradOf, nd_setGrad_ne g i j c h, gradOf]

theorem nd_setGrad_data (g : Graph α) (i j : Nat) (c : α) :
    dataOf (setGrad g i c) j = dataOf g j := by
  rcases eq_or_ne i j with h | h
  · rcases lt_or_le i g.length with hl | hl
    · rw [← h, dataOf, setGrad, nd_set_self _ _ _ hl]; rfl
    · rw [dataOf, setGrad, set_ge_len _ _ _ hl, dataOf]
  · rw [dataOf, nd_setGrad_ne g i j c h, dataOf]

theorem nd_setGrad_op (g : Graph α) (i j : Nat) (c : α) :
    (nd (setGrad g i c) j).op = (nd g j).op := by
  rcases eq_or_ne i j with h | h
  · rcases lt_or_le i g.length with hl | hl
    · rw [← h, setGrad, nd_set_self _ _ _ hl]
    · rw [setGrad, set_ge_len _ _ _ hl]
  · rw [nd_setGrad_ne g i j c h]

theorem nd_setGrad_prev (g : Graph α) (i j : Nat) (c : α) :
    prevOf (setGrad g i c) j = prevOf g j := by
  rcases eq_or_ne i j with h | h
  · rcases lt_or_le i g.length with hl | hl
    · rw [← h, prevOf, setGrad, nd_set_self _ _ _ hl]; rfl
    · rw [prevOf, setGrad, set_ge_len _ _ _ hl, prevOf]
  · rw [prevOf, nd_setGrad_ne g i j c h, prevOf]

/-! ### Unfolding runBwd at a known closure tag -/

theorem runBwd_eq_add (m : FloatOps α) (g : Graph α) (v a b : Nat)
    (hop : (nd g v).op = Op.add a b) :
    runBwd m g v =
      updGrad (updGrad g a (1 * gradOf g v)) b
        (1 * gradOf (updGrad g a (1 * gradOf g v)) v) := by
  unfold runBwd; rw [hop]

theorem runBwd_eq_mul (m : FloatOps α) (g : Graph α) (v a b : Nat)
    (hop : (nd g v).op = Op.mul a b) :
    runBwd m g v =
      updGrad (updGrad g a (dataOf g b * gradOf g v)) b
        (dataOf (updGrad g a (dataOf g b * gradOf g v)) a *
          gradOf (updGrad g a (dataOf g b * gradOf g v)) v) := by
  unfold runBwd; rw [hop]

theorem runBwd_eq_relu (m : FloatOps α) (g : Graph α) (v a : Nat)
    (hop : (nd g v).op = Op.relun a) :
    runBwd m g v =
      updGrad g a ((if 0 < dataOf g v then (1 : α) else 0) * gradOf g v) := by
  unfold runBwd; rw [hop]

/-- Running a closure touches only the gradient accumulators of the nodes
the closure captured as operands. -/
theorem gradOf_runBwd_ne (m : FloatOps α) (g : Graph α) (u j : Nat)
    (h : j ∉ opIds (nd g u).op) : gradOf (runBwd m g u) j = gradOf g j := by
  unfold runBwd
  cases hop : (nd g u).op with
  | leaf => rfl
  | add a b =>
    rw [hop] at h; simp [opIds] at h
    rw [gradOf_updGrad_ne _ _ _ _ (fun hh => h.2 hh.symm),
      gradOf_updGrad_ne _ _ _ _ (fun hh => h.1 hh.symm)]
  | mul a b =>
    rw [hop] at h; simp [opIds] at h
    rw [gradOf_updGrad_ne _ _ _ _ (fun hh => h.2 hh.symm),
      gradOf_updGrad_ne _ _ _ _ (fun hh => h.1 hh.symm)]
  | powc a p =>
    rw [hop] at h; simp [opIds] at h
    rw [gradOf_updGrad_ne _ _ _ _ (fun hh => h hh.symm)]
  | expn a =>
    rw [hop] at h; simp [opIds] at h
    rw [gradOf_updGrad_ne _ _ _ _ (fun hh => h hh.symm)]
  | tanhn a t =>
    rw [hop] at h; simp [opIds] at h
    rw [gradOf_updGrad_ne _ _ _ _ (fun hh => h hh.symm)]
  | relun a =>
    rw [hop] at h; simp [opIds] at h
    rw [gradOf_updGrad_ne _ _ _ _ (fun hh => h hh.symm)]
  | sigmoidn a s =>
    rw [hop] at h; simp [opIds] at h
    rw [gradOf_updGrad_ne _ _ _ _ (fun hh => h hh.symm)]

/-- Running a closure never changes a forward value. -/
theorem dataOf_runBwd (m : FloatOps α) (g : Graph α) (u j : Nat) :
    dataOf (runBwd m g u) j = dataOf g j := by
  unfold runBwd
  cases hop : (nd g u).op <;> simp [nd_updGrad_data]

/-- Running a closure never changes a closure tag. -/
theorem opOf_runBwd (m : FloatOps α) (g : Graph α) (u j : Nat) :
    (nd (runBwd m g u) j).op = (nd g j).op := by
  unfold runBwd
  cases hop : (nd g u).op <;> simp [nd_updGrad_op]

/-- Running a closure never changes an operand list. -/
theorem prevOf_runBwd (m : FloatOps α) (g : Graph α) (u j : Nat) :
    prevOf (runBwd m g u) j = prevOf g j := by
  unfold runBwd
  cases hop : (nd g u).op <;> simp [nd_updGrad_prev]

theorem runBwd_length (m : FloatOps α) (g : Graph α) (u : Nat) :
    (runBwd m g u).length = g.length := by
  unfold runBwd
  cases hop : (nd g u).op <;> simp [updGrad_length]

theorem dataOf_append_lt (g l : Graph α) (x : Nat) (hx : x < g.length) :
    dataOf (g ++ l) x = dataOf g x := by
  rw [dataOf, nd_append_lt g l x hx, dataOf]

theorem gradOf_app2_lt (g : Graph α) (n1 n2 : Node α) (x : Nat)
    (hx : x < g.length) : gradOf (g ++ [n1] ++ [n2]) x = gradOf g x := by
  rw [gradOf, nd_app2_lt g n1 n2 x hx, gradOf]

theorem gradOf_app2_new (g : Graph α) (n1 n2 : Node α) :
    gradOf (g ++ [n1] ++ [n2]) (g.length + 1) = n2.grad := by
  rw [gradOf, nd_app2_new]

theorem dataOf_app2_mid (g : Graph α) (n1 n2 : Node α) :
    dataOf (g ++ [n1] ++ [n2]) g.length = n1.data := by
  rw [dataOf, nd_app2_mid]


/-! ### Correctness of the depth-first post-order construction -/

theorem foldl_congr_fun {beta : Type} (l : List Nat) (f1 f2 : beta → Nat → beta) :
    ∀ s, (∀ s' c, c ∈ l → f1 s' c = f2 s' c) → l.foldl f1 s = l.foldl f2 s := by
  induction l with
  | nil => intro s _; rfl
  | cons a t ih =>
    intro s h
    show t.foldl f1 (f1 s a) = t.foldl f2 (f2 s a)
    rw [h s a (List.mem_cons_self a t)]
    exact ih _ (fun s' c hc => h s' c (List.mem_cons_of_mem a hc))

theorem reachch_through (ch : Nat → List Nat) {v c u : Nat} (hc : c ∈ ch v)
    (h : ReachCh ch c u) : ReachCh ch v u := by
  induction h with
  | refl => exact ReachCh.step (ReachCh.refl v) hc
  | step h1 h2 ih => exact ReachCh.step ih h2

theorem reachch_head_cases (ch : Nat → List Nat) {v u : Nat} (h : ReachCh ch v u) :
    u = v ∨ ∃ c ∈ ch v, ReachCh ch c u := by
  induction h with
  | refl => exact Or.inl rfl
  | step h1 hc ih =>
    rcases ih with rfl | ⟨c0, hc0, hr⟩
    · exact Or.inr ⟨_, hc, ReachCh.refl _⟩
    · exact Or.inr ⟨c0, hc0, ReachCh.step hr hc⟩

theorem reachch_closed (ch : Nat → List Nat) {t : List Nat} {v u : Nat}
    (hcl : ∀ w ∈ t, ∀ c ∈ ch w, c ∈ t) (hv : v ∈ t) (h : ReachCh ch v u) : u ∈ t := by
  induction h with
  | refl => exact hv
  | step h1 hc ih => exact hcl _ ih _ hc

theorem reachch_le (ch : Nat → List Nat) (hch : ∀ w c, c ∈ ch w → c < w)
    {v u : Nat} (h : ReachCh ch v u) : u ≤ v := by
  induction h with
  | refl => exact le_refl _
  | step h1 hc ih => exact le_of_lt (lt_of_lt_of_le (hch _ _ hc) ih)

/-- Invariant of the DFS state `(visited, topo)`: the post-order built so
far has no duplicates, is contained in the visited set, and every prefix of
it is closed under children (children appear strictly earlier). -/
def DfsInv (ch : Nat → List Nat) (vis topo : List Nat) : Prop :=
  topo.Nodup ∧ (∀ u ∈ topo, u ∈ vis) ∧
  (∀ n : Nat, ∀ u ∈ topo.take n, ∀ c ∈ ch u, c ∈ topo.take n)

/-- Postcondition of one `dfsVisit` call at node `v`. -/
def DfsPost (ch : Nat → List Nat) (v : Nat) (st st2 : List Nat × List Nat) : Prop :=
  (∃ d, st2.2 = st.2 ++ d) ∧
  (∀ s ∈ st.1, s ∈ st2.1) ∧
  (∀ s, (s ∈ st2.1 ∧ s ∉ st2.2) ↔ (s ∈ st.1 ∧ s ∉ st.2)) ∧
  DfsInv ch st2.1 st2.2 ∧
  v ∈ st2.1 ∧
  (∀ u, ReachCh ch v u → u ∈ st2.1) ∧
  (∀ u ∈ st2.2, u ∈ st.2 ∨ ReachCh ch v u)

/-- Postcondition of folding `dfsVisit` over a list of children. -/
def FoldPost (ch : Nat → List Nat) (l : List Nat) (st st2 : List Nat × List Nat) : Prop :=
  (∃ d, st2.2 = st.2 ++ d) ∧
  (∀ s ∈ st.1, s ∈ st2.1) ∧
  (∀ s, (s ∈ st2.1 ∧ s ∉ st2.2) ↔ (s ∈ st.1 ∧ s ∉ st.2)) ∧
  DfsInv ch st2.1 st2.2 ∧
  (∀ c ∈ l, c ∈ st2.1) ∧
  (∀ c ∈ l, ∀ u, ReachCh ch c u → u ∈ st2.1) ∧
  (∀ u ∈ st2.2, u ∈ st.2 ∨ ∃ c ∈ l, ReachCh ch c u)

theorem dfsVisit_foldl_spec (ch : Nat → List Nat) (fuel vcap : Nat)
    (HIH : ∀ w st, w < fuel → DfsInv ch st.1 st.2 →
      (∀ s ∈ st.1, s ∉ st.2 → w < s) →
      DfsPost ch w st (dfsVisit ch fuel w st)) :
    ∀ l st, (∀ c ∈ l, c < vcap) → vcap ≤ fuel → DfsInv ch st.1 st.2 →
      (∀ s ∈ st.1, s ∉ st.2 → vcap ≤ s) →
      FoldPost ch l st (l.foldl (fun s c => dfsVisit ch fuel c s) st) := by
  intro l
  induction l with
  | nil =>
    intro st _ _ hinv _
    exact ⟨⟨[], (List.append_nil _).symm⟩, fun s hs => hs, fun s => Iff.rfl, hinv,
      fun c hc => absurd hc (List.not_mem_nil c),
      fun c hc => absurd hc (List.not_mem_nil c),
      fun u hu => Or.inl hu⟩
  | cons c t ih =>
    intro st hl hfuel hinv hprog
    have hc : c < vcap := hl c (List.mem_cons_self c t)
    have h1 := HIH c st (lt_of_lt_of_le hc hfuel) hinv
      (fun s hs hns => lt_of_lt_of_le hc (hprog s hs hns))
    obtain ⟨⟨d1, hd1⟩, hmono1, hiff1, hinv1, hvmem1, hreach1, hsound1⟩ := h1
    have h2 := ih (dfsVisit ch fuel c st) (fun c' hc' => hl c' (List.mem_cons_of_mem c hc'))
      hfuel hinv1
      (fun s hs hns => hprog s ((hiff1 s).mp ⟨hs, hns⟩).1 ((hiff1 s).mp ⟨hs, hns⟩).2)
    obtain ⟨⟨d2, hd2⟩, hmono2, hiff2, hinv2, hl2, hlreach2, hsound2⟩ := h2
    have hfold : (c :: t).foldl (fun s c' => dfsVisit ch fuel c' s) st
        = t.foldl (fun s c' => dfsVisit ch fuel c' s) (dfsVisit ch fuel c st) := rfl
    rw [hfold]
    refine ⟨⟨d1 ++ d2, ?_⟩, fun s hs => hmono2 s (hmono1 s hs),
      fun s => (hiff2 s).trans (hiff1 s), hinv2, ?_, ?_, ?_⟩
    · rw [hd2, hd1, List.append_assoc]
    · intro c' hc'
      rcases List.mem_cons.mp hc' with rfl | hmem
      · exact hmono2 c' (hvmem1)
      · exact hl2 c' hmem
    · intro c' hc' u hu
      rcases List.mem_cons.mp hc' with rfl | hmem
      · exact hmono2 u (hreach1 u hu)
      · exact hlreach2 c' hmem u hu
    · intro u hu
      rcases hsound2 u hu with hu2 | ⟨c', hc', hr⟩
      · rcases hsound1 u hu2 with hu1 | hr
        · exact Or.inl hu1
        · exact Or.inr ⟨c, List.mem_cons_self c t, hr⟩
      · exact Or.inr ⟨c', List.mem_cons_of_mem c hc', hr⟩

theorem dfsVisit_spec (ch : Nat → List Nat) (hch : ∀ w c, c ∈ ch w → c < w) :
    ∀ fuel v st, v < fuel → DfsInv ch st.1 st.2 →
      (∀ s ∈ st.1, s ∉ st.2 → v < s) →
      DfsPost ch v st (dfsVisit ch fuel v st) := by
  intro fuel
  induction fuel with
  | zero => intro v st hv; omega
  | succ a ih =>
    intro v st hv hinv hprog
    show DfsPost ch v st (if v ∈ st.1 then st else _)
    by_cases hmem : v ∈ st.1
    · rw [if_pos hmem]
      have hvt : v ∈ st.2 := by
        by_contra hns
        exact lt_irrefl v (hprog v hmem hns)
      have hfull : ∀ w ∈ st.2, ∀ c ∈ ch w, c ∈ st.2 := by
        have h3 := hinv.2.2 st.2.length
        rw [List.take_length] at h3
        exact h3
      refine ⟨⟨[], (List.append_nil _).symm⟩, fun s hs => hs, fun s => Iff.rfl, hinv,
        hmem, ?_, fun u hu => Or.inl hu⟩
      intro u hu
      exact hinv.2.1 u (reachch_closed ch hfull hvt hu)
    · rw [if_neg hmem]
      have hvnt : v ∉ st.2 := fun hvt => hmem (hinv.2.1 v hvt)
      have hinv1 : DfsInv ch (v :: st.1) st.2 :=
        ⟨hinv.1, fun u hu => List.mem_cons_of_mem v (hinv.2.1 u hu), hinv.2.2⟩
      have hprog1 : ∀ s ∈ v :: st.1, s ∉ st.2 → v ≤ s := by
        intro s hs hns
        rcases List.mem_cons.mp hs with rfl | hs'
        · exact le_refl s
        · exact le_of_lt (hprog s hs' hns)
      have hfold := dfsVisit_foldl_spec ch a v ih (ch v) (v :: st.1, st.2)
        (fun c hc => hch v c hc) (Nat.lt_succ_iff.mp hv) hinv1 hprog1
      obtain ⟨⟨d2, hd2⟩, hmono2, hiff2, hinv2, hl2, hlreach2, hsound2⟩ := hfold
      show DfsPost ch v st
        (((ch v).foldl (fun s c => dfsVisit ch a c s) (v :: st.1, st.2)).1,
         ((ch v).foldl (fun s c => dfsVisit ch a c s) (v :: st.1, st.2)).2 ++ [v])
      set st2 := (ch v).foldl (fun s c => dfsVisit ch a c s) (v :: st.1, st.2) with hst2
      have hvin2 : v ∈ st2.1 ∧ v ∉ st2.2 :=
        (hiff2 v).mpr ⟨List.mem_cons_self v st.1, hvnt⟩
      have hchin : ∀ c ∈ ch v, c ∈ st2.2 := by
        intro c hc
        by_contra hns
        have := (hiff2 c).mp ⟨hl2 c hc, hns⟩
        rcases List.mem_cons.mp this.1 with rfl | hcs
        · exact lt_irrefl c (hch c c hc)
        · exact absurd (hprog c hcs this.2) (not_lt_of_ge (le_of_lt (hch v c hc)))
      have hfull2 : ∀ w ∈ st2.2, ∀ c ∈ ch w, c ∈ st2.2 := by
        have h3 := hinv2.2.2 st2.2.length
        rw [List.take_length] at h3
        exact h3
      refine ⟨⟨d2 ++ [v], ?_⟩, ?_, ?_, ?_, ?_, ?_, ?_⟩
      · show st2.2 ++ [v] = st.2 ++ (d2 ++ [v])
        rw [hd2, List.append_assoc]
      · intro s hs
        exact hmono2 s (List.mem_cons_of_mem v hs)
      · intro s
        constructor
        · rintro ⟨hs1, hs2⟩
          have hsne : s ≠ v := by
            intro h
            exact hs2 (by rw [h]; exact List.mem_append_right _ (List.mem_singleton.mpr rfl))
          have hsnt : s ∉ st2.2 := fun h => hs2 (List.mem_append_left _ h)
          have := (hiff2 s).mp ⟨hs1, hsnt⟩
          rcases List.mem_cons.mp this.1 with rfl | hs'
          · exact absurd rfl hsne
          · exact ⟨hs', this.2⟩
        · rintro ⟨hs1, hs2⟩
          have hsne : s ≠ v := fun h => hmem (h ▸ hs1)
          have := (hiff2 s).mpr ⟨List.mem_cons_of_mem v hs1, hs2⟩
          refine ⟨this.1, ?_⟩
          intro hmem'
          rcases List.mem_append.mp hmem' with h | h
          · exact this.2 h
          · exact hsne (List.mem_singleton.mp h)
      · refine ⟨?_, ?_, ?_⟩
        · have : v ∉ st2.2 := hvin2.2
          simp [List.nodup_append, hinv2.1, this]
        · intro u hu
          rcases List.mem_append.mp hu with h | h
          · exact hinv2.2.1 u h
          · rw [List.mem_singleton.mp h]; exact hvin2.1
        · intro n u hu c hc
          rcases le_or_lt n st2.2.length with hn | hn
          · rw [List.take_append_of_le_length hn] at hu ⊢
            exact hinv2.2.2 n u hu c hc
          · have hlen : (st2.2 ++ [v]).length ≤ n := by
              simp; omega
            rw [List.take_of_length_le hlen] at hu ⊢
            rcases List.mem_append.mp hu with h | h
            · exact List.mem_append_left _ (hfull2 u h c hc)
            · rw [List.mem_singleton.mp h] at hc
              exact List.mem_append_left _ (hchin c hc)
      · exact hvin2.1
      · intro u hu
        rcases reachch_head_cases ch hu with rfl | ⟨c, hc, hr⟩
        · exact hvin2.1
        · exact hlreach2 c hc u hr
      · intro u hu
        rcases List.mem_append.mp hu with h | h
        · rcases hsound2 u h with h' | ⟨c, hc, hr⟩
          · exact Or.inl h'
          · exact Or.inr (reachch_through ch hc hr)
        · rw [List.mem_singleton.mp h]
          exact Or.inr (ReachCh.refl v)



/-- One-step unfolding of `dfsVisit` at positive fuel. -/
theorem dfsVisit_succ (ch : Nat → List Nat) (f v : Nat) (st : List Nat × List Nat) :
    dfsVisit ch (f + 1) v st =
      if v ∈ st.1 then st
      else
        (((ch v).foldl (fun s c => dfsVisit ch f c s) (v :: st.1, st.2)).1,
         ((ch v).foldl (fun s c => dfsVisit ch f c s) (v :: st.1, st.2)).2 ++ [v]) := rfl

/-- On a monotone (hence acyclic) children relation, the fuel is irrelevant
once it exceeds the start node: the recursion of the source terminates. -/
theorem dfsVisit_fuel (ch : Nat → List Nat) (hch : ∀ w c, c ∈ ch w → c < w) :
    ∀ f1 v f2 st, v < f1 → v < f2 → dfsVisit ch f1 v st = dfsVisit ch f2 v st := by
  intro f1
  induction f1 with
  | zero => intro v f2 st h1 _; exact absurd h1 (Nat.not_lt_zero v)
  | succ a ih =>
    intro v f2 st h1 h2
    cases f2 with
    | zero => exact absurd h2 (Nat.not_lt_zero v)
    | succ b =>
      rw [dfsVisit_succ, dfsVisit_succ]
      by_cases hv : v ∈ st.1
      · rw [if_pos hv, if_pos hv]
      · rw [if_neg hv, if_neg hv]
        have heq : (ch v).foldl (fun s c => dfsVisit ch a c s) (v :: st.1, st.2)
            = (ch v).foldl (fun s c => dfsVisit ch b c s) (v :: st.1, st.2) :=
          foldl_congr_fun _ _ _ _ (fun s c hc => ih c b s
            (lt_of_lt_of_le (hch v c hc) (Nat.lt_succ_iff.mp h1))
            (lt_of_lt_of_le (hch v c hc) (Nat.lt_succ_iff.mp h2)))
        rw [heq]

/-- The traversal depends only on the children relation. -/
theorem dfsVisit_congr (ch1 ch2 : Nat → List Nat) (h : ∀ v, ch1 v = ch2 v) :
    ∀ fuel v st, dfsVisit ch1 fuel v st = dfsVisit ch2 fuel v st := by
  intro fuel
  induction fuel with
  | zero => intro v st; rfl
  | succ a ih =>
    intro v st
    rw [dfsVisit_succ, dfsVisit_succ]
    by_cases hv : v ∈ st.1
    · rw [if_pos hv, if_pos hv]
    · rw [if_neg hv, if_neg hv, h v]
      have heq : (ch2 v).foldl (fun s c => dfsVisit ch1 a c s) (v :: st.1, st.2)
          = (ch2 v).foldl (fun s c => dfsVisit ch2 a c s) (v :: st.1, st.2) :=
        foldl_congr_fun _ _ _ _ (fun s c _ => ih c s)
      rw [heq]

theorem prevOf_setGrad (g : Graph α) (r : Nat) (c : α) :
    ∀ v, prevOf (setGrad g r c) v = prevOf g v := fun v => nd_setGrad_prev g r v c

/-- Seeding the root gradient does not change the traversal order. -/
theorem buildTopo_setGrad (g : Graph α) (r root : Nat) (c : α) :
    buildTopo (setGrad g r c) root = buildTopo g root := by
  unfold buildTopo
  rw [dfsVisit_congr (prevOf (setGrad g r c)) (prevOf g) (prevOf_setGrad g r c)]

theorem WF_prev_lt (g : Graph α) (hwf : WF g) : ∀ v c, c ∈ prevOf g v → c < v := by
  intro v c hc
  rcases lt_or_le v g.length with h | h
  · exact (hwf v h).1 c hc
  · rw [prevOf, nd_ge_len g v h] at hc
    simp [defaultNode] at hc

theorem WF_opIds_lt (g : Graph α) (hwf : WF g) :
    ∀ v c, c ∈ opIds (nd g v).op → c < v := by
  intro v c hc
  rcases lt_or_le v g.length with h | h
  · exact (hwf v h).2 c hc
  · rw [nd_ge_len g v h] at hc
    simp [defaultNode, opIds] at hc

/-- Core properties of the source's post-order: no duplicates, exactly the
reachable sub-graph, and every prefix closed under operands. -/
theorem buildTopo_spec (g : Graph α) (root : Nat) (hwf : WF g) :
    (buildTopo g root).Nodup ∧
    (∀ v, v ∈ buildTopo g root ↔ Reaches g root v) ∧
    (∀ n : Nat, ∀ u ∈ (buildTopo g root).take n, ∀ c ∈ prevOf g u,
      c ∈ (buildTopo g root).take n) := by
  have hch := WF_prev_lt g hwf
  have hinv0 : DfsInv (prevOf g) ([] : List Nat) ([] : List Nat) := by
    refine ⟨List.nodup_nil, ?_, ?_⟩
    · intro u hu; exact absurd hu (List.not_mem_nil u)
    · intro n u hu; rw [List.take_nil] at hu; exact absurd hu (List.not_mem_nil u)
  have h := dfsVisit_spec (prevOf g) hch (root + 1) root ([], []) (Nat.lt_succ_self root)
    hinv0 (fun s hs => absurd hs (List.not_mem_nil s))
  obtain ⟨_, _, hiff, hinv, _, hreach, hsound⟩ := h
  refine ⟨hinv.1, ?_, hinv.2.2⟩
  intro v
  constructor
  · intro hv
    rcases hsound v hv with h' | h'
    · exact absurd h' (List.not_mem_nil v)
    · exact h'
  · intro hv
    have h1 := hreach v hv
    by_contra hnv
    have h2 := (hiff v).mp ⟨h1, hnv⟩
    exact absurd h2.1 (List.not_mem_nil v)

theorem mem_take_indexOf_succ (l : List Nat) (u : Nat) (h : u ∈ l) :
    u ∈ l.take (l.indexOf u + 1) := by
  induction l with
  | nil => exact absurd h (List.not_mem_nil u)
  | cons a t ih =>
    by_cases hau : a = u
    · rw [hau, List.indexOf_cons_self]
      exact List.mem_cons_self u _
    · have ht : u ∈ t := by
        rcases List.mem_cons.mp h with h' | h'
        · exact absurd h'.symm hau
        · exact h'
      rw [List.indexOf_cons_ne t hau, List.take_succ_cons]
      exact List.mem_cons_of_mem a (ih ht)

theorem indexOf_lt_of_mem_take (l : List Nat) (c : Nat) :
    ∀ n, c ∈ l.take n → l.indexOf c < n := by
  induction l with
  | nil => intro n h; rw [List.take_nil] at h; exact absurd h (List.not_mem_nil c)
  | cons a t ih =>
    intro n h
    cases n with
    | zero => rw [List.take_zero] at h; exact absurd h (List.not_mem_nil c)
    | succ m =>
      rw [List.take_succ_cons] at h
      by_cases hac : a = c
      · rw [hac, List.indexOf_cons_self]; omega
      · have ht : c ∈ t.take m := by
          rcases List.mem_cons.mp h with h' | h'
          · exact absurd h'.symm hac
          · exact h'
        have := ih m ht
        rw [List.indexOf_cons_ne t hac]; omega

theorem indexOf_lt_indexOf (l : List Nat) {u c : Nat} (hu : u ∈ l) (hc : c ∈ l)
    (hne : c ≠ u) (htk : c ∈ l.take (l.indexOf u + 1)) :
    l.indexOf c < l.indexOf u := by
  have h1 : l.indexOf c < l.indexOf u + 1 := indexOf_lt_of_mem_take l c _ htk
  have h2 : l.indexOf c ≠ l.indexOf u := by
    intro he
    have hcl : l.indexOf c < l.length := List.indexOf_lt_length.mpr hc
    have hul : l.indexOf u < l.length := List.indexOf_lt_length.mpr hu
    have hgc := List.indexOf_get hcl
    have hgu := List.indexOf_get hul
    apply hne
    rw [← hgc, ← hgu]
    exact congrArg l.get (Fin.ext he)
  omega

/-- Every operand of a node in the post-order appears strictly earlier in
the post-order, hence strictly later in the reversed processing order. -/
theorem buildTopo_order (g : Graph α) (root : Nat) (hwf : WF g) :
    ∀ u ∈ buildTopo g root, ∀ c ∈ prevOf g u,
      (buildTopo g root).indexOf c < (buildTopo g root).indexOf u := by
  obtain ⟨hnd, hiff, htake⟩ := buildTopo_spec g root hwf
  intro u hu c hc
  have hcu : c < u := WF_prev_lt g hwf u c hc
  have htk : c ∈ (buildTopo g root).take ((buildTopo g root).indexOf u + 1) :=
    htake _ u (mem_take_indexOf_succ _ u hu) c hc
  have hcmem : c ∈ buildTopo g root := List.take_subset _ _ htk
  exact indexOf_lt_indexOf _ hu hcmem (Nat.ne_of_lt hcu) htk

/-- The post-order always ends with the root (so the reversed processing
order starts with it). -/
theorem buildTopo_concat (g : Graph α) (root : Nat) :
    ∃ l, buildTopo g root = l ++ [root] := by
  refine ⟨((prevOf g root).foldl (fun s c => dfsVisit (prevOf g) root c s)
    ([root], [])).2, ?_⟩
  unfold buildTopo
  rw [dfsVisit_succ]
  rw [if_neg (List.not_mem_nil root)]


/-! ### Well-formedness preservation -/

instance decidableWF (g : Graph α) : Decidable (WF g) :=
  decidable_of_iff (∀ v, v < g.length →
    (∀ c ∈ (nd g v).prev, c < v) ∧ (∀ c ∈ opIds (nd g v).op, c < v)) Iff.rfl

theorem WF_append_node (g : Graph α) (n : Node α) (hwf : WF g)
    (hprev : ∀ c ∈ n.prev, c < g.length) (hop : ∀ c ∈ opIds n.op, c < g.length) :
    WF (g ++ [n]) := by
  intro v hv
  rcases lt_or_le v g.length with h | h
  · rw [nd_append_lt _ _ _ h]; exact hwf v h
  · have hv' : v = g.length := by
      rw [List.length_append, List.length_singleton] at hv; omega
    subst hv'
    rw [nd_snoc_self]
    exact ⟨hprev, hop⟩

theorem WF_mkValue (g : Graph α) (d : α) (hwf : WF g) : WF (mkValue g d).1 := by
  refine WF_append_node g _ hwf ?_ ?_
  · intro c hc; exact absurd hc (List.not_mem_nil c)
  · intro c hc; simp [opIds] at hc

theorem WF_reluV (g : Graph α) (x : Nat) (hx : x < g.length) (hwf : WF g) :
    WF (reluV g x).1 := by
  refine WF_append_node g _ hwf ?_ ?_
  · intro c hc; rw [List.mem_singleton.mp hc]; exact hx
  · intro c hc; simp only [opIds, List.mem_singleton] at hc; rw [hc]; exact hx

theorem WF_setGrad (g : Graph α) (i : Nat) (c : α) (hwf : WF g) :
    WF (setGrad g i c) := by
  intro v hv
  rw [setGrad_length] at hv
  refine ⟨fun c' hc' => (hwf v hv).1 c' ?_, fun c' hc' => (hwf v hv).2 c' ?_⟩
  · have h := nd_setGrad_prev g i v c
    simp only [prevOf] at h
    rw [← h]; exact hc'
  · have h := nd_setGrad_op g i v c
    rw [← h]; exact hc'


theorem gradOf_append_lt (g l : Graph α) (x : Nat) (hx : x < g.length) :
    gradOf (g ++ l) x = gradOf g x := by
  rw [gradOf, nd_append_lt g l x hx, gradOf]

theorem gradOf_snoc_self (g : Graph α) (n : Node α) :
    gradOf (g ++ [n]) g.length = n.grad := by rw [gradOf, nd_snoc_self]

/-- Folding closures of nodes none of which captured `j` as an operand
leaves `j`'s gradient accumulator unchanged. -/
theorem gradOf_foldl_runBwd (m : FloatOps α) :
    ∀ (l : List Nat) (g : Graph α) (j : Nat),
      (∀ u ∈ l, j ∉ opIds (nd g u).op) →
      gradOf (l.foldl (runBwd m) g) j = gradOf g j := by
  intro l
  induction l with
  | nil => intro g j _; rfl
  | cons u t ih =>
    intro g j h
    have h1 : gradOf (runBwd m g u) j = gradOf g j :=
      gradOf_runBwd_ne m g u j (h u (List.mem_cons_self u t))
    have h2 : ∀ w ∈ t, j ∉ opIds (nd (runBwd m g u) w).op := by
      intro w hw
      rw [opOf_runBwd]
      exact h w (List.mem_cons_of_mem u hw)
    show gradOf (t.foldl (runBwd m) (runBwd m g u)) j = gradOf g j
    rw [ih (runBwd m g u) j h2, h1]

/-- A full backward pass from a freshly appended `relu` node contributes
exactly `(out.data > 0) * 1` to the operand's accumulator and nothing else
to it: only the relu node's own closure captured `x`. -/
theorem backward_snoc_relu (m : FloatOps α) (g : Graph α) (x : Nat) (n : Node α)
    (hx : x < g.length) (hwf : WF g)
    (hop : n.op = Op.relun x) (hprev : n.prev = [x]) :
    gradOf (backward m (g ++ [n]) g.length) x =
      gradOf g x + (if 0 < n.data then (1:α) else 0) * 1 := by
  have hwf1 : WF (g ++ [n]) := by
    refine WF_append_node g n hwf ?_ ?_
    · intro c hc; rw [hprev, List.mem_singleton] at hc; rw [hc]; exact hx
    · intro c hc; rw [hop] at hc; simp only [opIds, List.mem_singleton] at hc
      rw [hc]; exact hx
  have hwf2 : WF (setGrad (g ++ [n]) g.length 1) := WF_setGrad _ _ _ hwf1
  have hch2 := WF_prev_lt _ hwf2
  obtain ⟨hnd, hiff, _⟩ := buildTopo_spec (setGrad (g ++ [n]) g.length 1) g.length hwf2
  obtain ⟨l, hl⟩ := buildTopo_concat (setGrad (g ++ [n]) g.length 1) g.length
  have hrlen : g.length < (g ++ [n]).length := by simp
  have hxlen2 : x < (setGrad (g ++ [n]) g.length 1).length := by
    rw [setGrad_length]; simp; omega
  have hopr : (nd (setGrad (g ++ [n]) g.length 1) g.length).op = Op.relun x := by
    rw [nd_setGrad_op, nd_snoc_self, hop]
  have hgr2 : gradOf (setGrad (g ++ [n]) g.length 1) g.length = 1 :=
    gradOf_setGrad_self _ _ _ hrlen
  have hdr2 : dataOf (setGrad (g ++ [n]) g.length 1) g.length = n.data := by
    rw [nd_setGrad_data, dataOf, nd_snoc_self]
  have hprevr : prevOf (setGrad (g ++ [n]) g.length 1) g.length = [x] := by
    rw [nd_setGrad_prev, prevOf, nd_snoc_self, hprev]
  have hbw : backward m (g ++ [n]) g.length =
      (buildTopo (setGrad (g ++ [n]) g.length 1) g.length).reverse.foldl (runBwd m)
        (setGrad (g ++ [n]) g.length 1) := rfl
  rw [hbw, hl, List.reverse_append, List.reverse_singleton, List.singleton_append]
  have hrnotl : g.length ∉ l := by
    rw [hl] at hnd
    intro hmem
    rcases List.nodup_append.mp hnd with ⟨_, _, hdisj⟩
    exact hdisj hmem (List.mem_singleton.mpr rfl)
  have hnotin : ∀ u ∈ l.reverse,
      x ∉ opIds (nd (runBwd m (setGrad (g ++ [n]) g.length 1) g.length) u).op := by
    intro u hu hxops
    have hul : u ∈ l := List.mem_reverse.mp hu
    have hutopo : u ∈ buildTopo (setGrad (g ++ [n]) g.length 1) g.length := by
      rw [hl]; exact List.mem_append_left _ hul
    have hur : u ≠ g.length := fun he => hrnotl (he ▸ hul)
    have hreach := (hiff u).mp hutopo
    rcases reachch_head_cases _ hreach with he | ⟨cc, hcc, hrc⟩
    · exact hur he
    · rw [hprevr, List.mem_singleton] at hcc
      rw [hcc] at hrc
      have hux : u ≤ x := reachch_le _ hch2 hrc
      rw [opOf_runBwd] at hxops
      have := WF_opIds_lt _ hwf2 u x hxops
      omega
  rw [show (g.length :: l.reverse).foldl (runBwd m) (setGrad (g ++ [n]) g.length 1)
      = l.reverse.foldl (runBwd m)
          (runBwd m (setGrad (g ++ [n]) g.length 1) g.length) from rfl]
  rw [gradOf_foldl_runBwd m l.reverse _ x hnotin]
  rw [runBwd_eq_relu m _ _ x hopr]
  rw [gradOf_updGrad_self _ _ _ hxlen2]
  have hg2x : gradOf (setGrad (g ++ [n]) g.length 1) x = gradOf g x := by
    rw [gradOf_setGrad_ne _ _ _ _ (by omega), gradOf_append_lt g [n] x hx]
  rw [hg2x, hgr2, hdr2]

/-! ### Concrete example graphs -/

/-- The graph of `x = Value(3.0); y = x*x + x`: node 0 is `x`, node 1 is
`x*x`, node 2 is `y`. -/
def c1Graph : Graph ℚ :=
  (addV (mulV (mkValue ([] : Graph ℚ) 3).1 0 (Arg.node 0)).1 1 (Arg.node 0)).1

/-- A single leaf `x = Value(2.0)` (node 0). -/
def c4Graph : Graph ℚ := (mkValue ([] : Graph ℚ) 2).1

/-! ### Claims -/

/-- C1: gradient accumulation over a shared operand.  For `x = Value(3.0)`
and `y = x*x + x` (node 2 of `c1Graph`), the forward value of `y` is `12.0`,
and after `y.backward()` the gradient of `x` (node 0) is `7.0 = 2*x + 1`,
the sum of both paths' contributions. -/
theorem C1_shared_operand_gradient (m : FloatOps ℚ) :
    dataOf c1Graph 2 = 12 ∧ gradOf (backward m c1Graph 2) 0 = 7 := by
  constructor
  · norm_num [c1Graph, addV, mulV, mkValue, pushNode, coerceArg, prevPair,
      dataOf, nd, defaultNode]
  · norm_num [c1Graph, backward, buildTopo, dfsVisit, runBwd, setGrad,
      updGrad, addV, mulV, mkValue, pushNode, coerceArg, prevPair,
      dataOf, gradOf, prevOf, nd, defaultNode]

/-- C3: for every base node `x` and every exponent argument that is a node
rather than a constant number, the power operation fails with the
`InvalidOperand` error (the failed `assert isinstance(other, (float, int))`)
and returns the graph unchanged: no node's value, gradient, operand list or
backward closure is mutated, since the guard runs before any construction. -/
theorem C3_pow_invalid_exponent (m : FloatOps α) (g : Graph α) (x e : Nat) :
    powV m g x (Arg.node e) =
      (g, Except.error ("only supporting int/float powers for now")) := rfl

/-- C4 (code behavior at the failing input): the source's `__rsub__` returns
`self + (-other)`, so `5.0 - Value(2.0)` evaluates to `2.0 - 5.0 = -3.0`,
not the `5.0 - 2.0 = 3.0` that reflected subtraction requires. -/
theorem C4_rsub_behavior_at_failing_input :
    dataOf (rsubV c4Graph 0 5).1 (rsubV c4Graph 0 5).2 = -3 ∧
      ((-3 : ℚ) ≠ 5 - 2) := by
  constructor
  · norm_num [c4Graph, rsubV, addV, mkValue, pushNode, coerceArg, prevPair,
      dataOf, nd, defaultNode]
  · norm_num

/-- C6: composition equivalence of subtraction.  `subtract(a, b)` (the
source's `__sub__`) produces the same forward value as explicitly building
`add(a, negate(b))`, and after a backward pass from each result the
gradients of `a` and of `b` agree exactly; in this code the two
constructions are one and the same composition, so all three equalities are
definitional. -/
theorem C6_sub_is_add_neg (g : Graph α) (a b : Nat) (m : FloatOps α) :
    dataOf (subVV g a b).1 (subVV g a b).2 =
      dataOf (addV (negV g b).1 a (Arg.node (negV g b).2)).1
        (addV (negV g b).1 a (Arg.node (negV g b).2)).2 ∧
    gradOf (backward m (subVV g a b).1 (subVV g a b).2) a =
      gradOf (backward m (addV (negV g b).1 a (Arg.node (negV g b).2)).1
        (addV (negV g b).1 a (Arg.node (negV g b).2)).2) a ∧
    gradOf (backward m (subVV g a b).1 (subVV g a b).2) b =
      gradOf (backward m (addV (negV g b).1 a (Arg.node (negV g b).2)).1
        (addV (negV g b).1 a (Arg.node (negV g b).2)).2) b :=
  ⟨rfl, rfl, rfl⟩

/-- C7: additive and multiplicative identities.  For every node `x` (in
range), `add(x, 0)` produces a node whose value equals `x`'s value; and
whenever the output node's gradient accumulator holds `c`, running its
backward closure adds exactly `1 * c` to `x`'s accumulator (the gradient is
passed through unchanged).  Likewise for `multiply(x, 1)`. -/
theorem C7_identity_passthrough (m : FloatOps α) (g : Graph α) (x : Nat)
    (hx : x < g.length) (c : α) :
    dataOf (addV g x (Arg.const 0)).1 (addV g x (Arg.const 0)).2 = dataOf g x ∧
    gradOf (runBwd m (updGrad (addV g x (Arg.const 0)).1 (addV g x (Arg.const 0)).2 c)
        (addV g x (Arg.const 0)).2) x = gradOf g x + c ∧
    dataOf (mulV g x (Arg.const 1)).1 (mulV g x (Arg.const 1)).2 = dataOf g x ∧
    gradOf (runBwd m (updGrad (mulV g x (Arg.const 1)).1 (mulV g x (Arg.const 1)).2 c)
        (mulV g x (Arg.const 1)).2) x = gradOf g x + c := by
  have hA2 : (addV g x (Arg.const (0:α))).2 = g.length + 1 := by
    simp [addV, coerceArg, mkValue, pushNode]
  have hA1 : (addV g x (Arg.const (0:α))).1 =
      g ++ [⟨0, 0, Op.leaf, [], "", ""⟩]
        ++ [⟨dataOf g x + 0, 0, Op.add x g.length, prevPair x g.length, "+", ""⟩] := by
    simp only [addV, coerceArg, mkValue, pushNode]
    rw [dataOf_append_lt g _ x hx, dataOf_snoc_self]
  have hM2 : (mulV g x (Arg.const (1:α))).2 = g.length + 1 := by
    simp [mulV, coerceArg, mkValue, pushNode]
  have hM1 : (mulV g x (Arg.const (1:α))).1 =
      g ++ [⟨1, 0, Op.leaf, [], "", ""⟩]
        ++ [⟨dataOf g x * 1, 0, Op.mul x g.length, prevPair x g.length, "*", ""⟩] := by
    simp only [mulV, coerceArg, mkValue, pushNode]
    rw [dataOf_append_lt g _ x hx, dataOf_snoc_self]
  have hxn : x ≠ g.length := by omega
  have hxr : x ≠ g.length + 1 := by omega
  have hnr : g.length ≠ g.length + 1 := by omega
  refine ⟨?_, ?_, ?_, ?_⟩
  · rw [hA1, hA2, dataOf, nd_app2_new]
    exact add_zero (dataOf g x)
  · have hop : (nd (updGrad (addV g x (Arg.const 0)).1 (addV g x (Arg.const 0)).2 c)
        (addV g x (Arg.const 0)).2).op = Op.add x g.length := by
      rw [nd_updGrad_op, hA1, hA2, nd_app2_new]
    rw [runBwd_eq_add m _ _ x g.length hop]
    have hxlen : x < (updGrad (addV g x (Arg.const 0)).1 (addV g x (Arg.const 0)).2 c).length := by
      rw [updGrad_length, hA1]; simp; omega
    rw [gradOf_updGrad_ne _ _ _ _ (Ne.symm hxn), gradOf_updGrad_self _ _ _ hxlen]
    have h1 : gradOf (updGrad (addV g x (Arg.const 0)).1 (addV g x (Arg.const 0)).2 c) x
        = gradOf g x := by
      have hrx : (addV g x (Arg.const (0:α))).2 ≠ x := by rw [hA2]; omega
      rw [gradOf_updGrad_ne _ _ _ _ hrx, hA1, gradOf_app2_lt _ _ _ _ hx]
    have h2 : gradOf (updGrad (addV g x (Arg.const 0)).1 (addV g x (Arg.const 0)).2 c)
        (addV g x (Arg.const 0)).2 = 0 + c := by
      have hr : (addV g x (Arg.const (0:α))).2 < (addV g x (Arg.const (0:α))).1.length := by
        rw [hA1, hA2]; simp
      rw [gradOf_updGrad_self _ _ _ hr, hA1, hA2, gradOf_app2_new]
    rw [h1, h2]; ring
  · rw [hM1, hM2, dataOf, nd_app2_new]
    exact mul_one (dataOf g x)
  · have hop : (nd (updGrad (mulV g x (Arg.const 1)).1 (mulV g x (Arg.const 1)).2 c)
        (mulV g x (Arg.const 1)).2).op = Op.mul x g.length := by
      rw [nd_updGrad_op, hM1, hM2, nd_app2_new]
    rw [runBwd_eq_mul m _ _ x g.length hop]
    have hxlen : x < (updGrad (mulV g x (Arg.const 1)).1 (mulV g x (Arg.const 1)).2 c).length := by
      rw [updGrad_length, hM1]; simp; omega
    rw [gradOf_updGrad_ne _ _ _ _ (Ne.symm hxn), gradOf_updGrad_self _ _ _ hxlen]
    have hd : dataOf (updGrad (mulV g x (Arg.const 1)).1 (mulV g x (Arg.const 1)).2 c)
        g.length = 1 := by
      rw [nd_updGrad_data, hM1, dataOf_app2_mid]
    have h1 : gradOf (updGrad (mulV g x (Arg.const 1)).1 (mulV g x (Arg.const 1)).2 c) x
        = gradOf g x := by
      have hrx : (mulV g x (Arg.const (1:α))).2 ≠ x := by rw [hM2]; omega
      rw [gradOf_updGrad_ne _ _ _ _ hrx, hM1, gradOf_app2_lt _ _ _ _ hx]
    have h2 : gradOf (updGrad (mulV g x (Arg.const 1)).1 (mulV g x (Arg.const 1)).2 c)
        (mulV g x (Arg.const 1)).2 = 0 + c := by
      have hr : (mulV g x (Arg.const (1:α))).2 < (mulV g x (Arg.const (1:α))).1.length := by
        rw [hM1, hM2]; simp
      rw [gradOf_updGrad_self _ _ _ hr, hM1, hM2, gradOf_app2_new]
    rw [hd, h1, h2]; ring

/-- Single-leaf witness graph over ℝ (node 0 is `Value(0.0)`). -/
def wG : Graph ℝ := [⟨0, 0, Op.leaf, [], "", ""⟩]

/-- Witness for C7 at the concrete leaf `Value(0.0)` over ℝ with the real
float primitives. -/
theorem C7_identity_passthrough_witness :
    0 < wG.length ∧
    (dataOf (addV wG 0 (Arg.const 0)).1 (addV wG 0 (Arg.const 0)).2 = dataOf wG 0 ∧
    gradOf (runBwd mR (updGrad (addV wG 0 (Arg.const 0)).1 (addV wG 0 (Arg.const 0)).2 2)
        (addV wG 0 (Arg.const 0)).2) 0 = gradOf wG 0 + 2 ∧
    dataOf (mulV wG 0 (Arg.const 1)).1 (mulV wG 0 (Arg.const 1)).2 = dataOf wG 0 ∧
    gradOf (runBwd mR (updGrad (mulV wG 0 (Arg.const 1)).1 (mulV wG 0 (Arg.const 1)).2 2)
        (mulV wG 0 (Arg.const 1)).2) 0 = gradOf wG 0 + 2) :=
  ⟨by norm_num [wG], C7_identity_passthrough mR wG 0 (by norm_num [wG]) 2⟩


/-- C5: ReLU behavior.  For every node `x` in a well-formed graph:
the relu output's forward value is `x`'s value if it is positive and `0`
otherwise; whenever the output's gradient accumulator holds `c`, running its
closure adds `(if out.value > 0 then 1 else 0) * c` to `x`'s accumulator;
and at `x = 0` the output value is `0` and a full `backward()` from the relu
node contributes nothing to `x`'s gradient — in particular for a freshly
wrapped `Value(0.0)` the gradient of `x` after the pass is `0`. -/
theorem C5_relu_behavior (m : FloatOps α) (g : Graph α) (x : Nat)
    (hx : x < g.length) (hwf : WF g) (c : α) :
    dataOf (reluV g x).1 (reluV g x).2
      = (if 0 < dataOf g x then dataOf g x else 0) ∧
    gradOf (runBwd m (updGrad (reluV g x).1 (reluV g x).2 c) (reluV g x).2) x
      = gradOf g x + (if 0 < dataOf (reluV g x).1 (reluV g x).2 then 1 else 0) * c ∧
    (dataOf g x = 0 →
      dataOf (reluV g x).1 (reluV g x).2 = 0 ∧
      gradOf (backward m (reluV g x).1 (reluV g x).2) x = gradOf g x) ∧
    gradOf (backward m
      (reluV (mkValue ([] : Graph α) 0).1 (mkValue ([] : Graph α) 0).2).1
      (reluV (mkValue ([] : Graph α) 0).1 (mkValue ([] : Graph α) 0).2).2)
      (mkValue ([] : Graph α) 0).2 = 0 := by
  have hdata : dataOf (reluV g x).1 (reluV g x).2
      = (if dataOf g x < 0 then 0 else dataOf g x) := by
    simp only [reluV]
    exact dataOf_pushNode g _
  refine ⟨?_, ?_, ?_, ?_⟩
  · rw [hdata]
    rcases lt_trichotomy (dataOf g x) 0 with h | h | h
    · rw [if_pos h, if_neg (not_lt.mpr (le_of_lt h))]
    · rw [h]
    · rw [if_neg (not_lt.mpr (le_of_lt h)), if_pos h]
  · rw [hdata]
    show gradOf (runBwd m (updGrad
        (g ++ [⟨if dataOf g x < 0 then 0 else dataOf g x, 0, Op.relun x, [x], "ReLU", ""⟩])
        g.length c) g.length) x
      = gradOf g x + (if 0 < (if dataOf g x < 0 then 0 else dataOf g x) then (1:α) else 0) * c
    have hop : (nd (updGrad (g ++ [⟨if dataOf g x < 0 then 0 else dataOf g x, 0,
        Op.relun x, [x], "ReLU", ""⟩]) g.length c) g.length).op = Op.relun x := by
      rw [nd_updGrad_op, nd_snoc_self]
    rw [runBwd_eq_relu m _ _ x hop]
    have hxlen : x < (updGrad (g ++ [⟨if dataOf g x < 0 then 0 else dataOf g x, 0,
        Op.relun x, [x], "ReLU", ""⟩]) g.length c).length := by
      rw [updGrad_length, List.length_append, List.length_singleton]; omega
    rw [gradOf_updGrad_self _ _ _ hxlen]
    have h1 : gradOf (updGrad (g ++ [⟨if dataOf g x < 0 then 0 else dataOf g x, 0,
        Op.relun x, [x], "ReLU", ""⟩]) g.length c) x = gradOf g x := by
      rw [gradOf_updGrad_ne _ _ _ _ (by omega : g.length ≠ x),
        gradOf_append_lt g _ x hx]
    have h2 : gradOf (updGrad (g ++ [⟨if dataOf g x < 0 then 0 else dataOf g x, 0,
        Op.relun x, [x], "ReLU", ""⟩]) g.length c) g.length = 0 + c := by
      rw [gradOf_updGrad_self _ _ _
        (by rw [List.length_append, List.length_singleton]; omega), gradOf_snoc_self]
    have h3 : dataOf (updGrad (g ++ [⟨if dataOf g x < 0 then 0 else dataOf g x, 0,
        Op.relun x, [x], "ReLU", ""⟩]) g.length c) g.length
        = (if dataOf g x < 0 then 0 else dataOf g x) := by
      rw [nd_updGrad_data, dataOf, nd_snoc_self]
    rw [h1, h2, h3, zero_add]
  · intro h0
    constructor
    · rw [hdata, h0]; simp
    · have hb := backward_snoc_relu m g x
        ⟨if dataOf g x < 0 then 0 else dataOf g x, 0, Op.relun x, [x], "ReLU", ""⟩
        hx hwf rfl rfl
      show gradOf (backward m
        (g ++ [⟨if dataOf g x < 0 then 0 else dataOf g x, 0, Op.relun x, [x], "ReLU", ""⟩])
        g.length) x = gradOf g x
      rw [hb, h0]
      simp
  · norm_num [backward, buildTopo, dfsVisit, runBwd, setGrad, updGrad, mkValue,
      reluV, pushNode, dataOf, gradOf, prevOf, nd, defaultNode, opIds]

/-- Witness for C5 at the concrete leaf `Value(0.0)` over ℝ. -/
theorem C5_relu_behavior_witness :
    (0 < wG.length ∧ WF wG) ∧
    (dataOf (reluV wG 0).1 (reluV wG 0).2
      = (if 0 < dataOf wG 0 then dataOf wG 0 else 0) ∧
    gradOf (runBwd mR (updGrad (reluV wG 0).1 (reluV wG 0).2 2) (reluV wG 0).2) 0
      = gradOf wG 0 + (if 0 < dataOf (reluV wG 0).1 (reluV wG 0).2 then 1 else 0) * 2 ∧
    (dataOf wG 0 = 0 →
      dataOf (reluV wG 0).1 (reluV wG 0).2 = 0 ∧
      gradOf (backward mR (reluV wG 0).1 (reluV wG 0).2) 0 = gradOf wG 0) ∧
    gradOf (backward mR
      (reluV (mkValue ([] : Graph ℝ) 0).1 (mkValue ([] : Graph ℝ) 0).2).1
      (reluV (mkValue ([] : Graph ℝ) 0).1 (mkValue ([] : Graph ℝ) 0).2).2)
      (mkValue ([] : Graph ℝ) 0).2 = 0) :=
  ⟨⟨by decide, by decide⟩, C5_relu_behavior mR wG 0 (by decide) (by decide) 2⟩

/-- C8: activation values at zero, with the real float primitives `mR`.
For every node `x` whose value is `0`, `sigmoid(x)` has forward value
exactly `0.5` and `tanh(x)` has forward value exactly `0.0`. -/
theorem C8_activations_at_zero (g : Graph ℝ) (x : Nat) (h : dataOf g x = 0) :
    dataOf (sigmoidV mR g x).1 (sigmoidV mR g x).2 = 1 / 2 ∧
    dataOf (tanhV mR g x).1 (tanhV mR g x).2 = 0 := by
  have hs : dataOf (sigmoidV mR g x).1 (sigmoidV mR g x).2
      = 1 / (1 + mR.exp (-1 * dataOf g x)) := by
    simp only [sigmoidV]; exact dataOf_pushNode g _
  have ht : dataOf (tanhV mR g x).1 (tanhV mR g x).2
      = (mR.exp (2 * dataOf g x) - 1) / (mR.exp (2 * dataOf g x) + 1) := by
    simp only [tanhV]; exact dataOf_pushNode g _
  constructor
  · rw [hs, h]; norm_num [mR, Real.exp_zero]
  · rw [ht, h]; norm_num [mR, Real.exp_zero]

/-- Witness for C8 at the concrete leaf `Value(0.0)` over ℝ. -/
theorem C8_activations_at_zero_witness :
    dataOf wG 0 = 0 ∧
    (dataOf (sigmoidV mR wG 0).1 (sigmoidV mR wG 0).2 = 1 / 2 ∧
     dataOf (tanhV mR wG 0).1 (tanhV mR wG 0).2 = 0) :=
  ⟨rfl, C8_activations_at_zero wG 0 rfl⟩


/-- The graph of `x = Value(3.0); y = x*x + x` over ℝ, used to witness the
backward-pass claims at a concrete input (node 2 is `y`). -/
noncomputable def wG3 : Graph ℝ :=
  (addV (mulV (mkValue ([] : Graph ℝ) 3).1 0 (Arg.node 0)).1 1 (Arg.node 0)).1

/-- C2: structure of the backward pass on a well-formed graph.  `backward`
first assigns the root gradient `1.0` and then folds the closures over the
reverse of the depth-first post-order `buildTopo`; that order contains every
node reachable from the root via operands exactly once (`Nodup` plus the
membership characterisation), every operand appears strictly before its
consumer in the post-order (so every consumer's closure runs first in the
reversed processing order), and the root is processed first. -/
theorem C2_backward_pass_structure (m : FloatOps α) (g : Graph α) (root : Nat)
    (hwf : WF g) :
    backward m g root =
      (buildTopo g root).reverse.foldl (runBwd m) (setGrad g root 1) ∧
    (buildTopo g root).Nodup ∧
    (∀ v, v ∈ buildTopo g root ↔ Reaches g root v) ∧
    (∀ u ∈ buildTopo g root, ∀ c ∈ prevOf g u,
      (buildTopo g root).indexOf c < (buildTopo g root).indexOf u) ∧
    (buildTopo g root).reverse.head? = some root := by
  obtain ⟨hnd, hiff, htake⟩ := buildTopo_spec g root hwf
  refine ⟨?_, hnd, hiff, buildTopo_order g root hwf, ?_⟩
  · show (buildTopo (setGrad g root 1) root).reverse.foldl (runBwd m) (setGrad g root 1)
      = (buildTopo g root).reverse.foldl (runBwd m) (setGrad g root 1)
    rw [buildTopo_setGrad]
  · obtain ⟨l, hl⟩ := buildTopo_concat g root
    rw [hl]
    simp

/-- Witness for C2 on the concrete graph `y = x*x + x` with `x = 3.0`. -/
theorem C2_backward_pass_structure_witness :
    WF wG3 ∧
    (backward mR wG3 2 =
      (buildTopo wG3 2).reverse.foldl (runBwd mR) (setGrad wG3 2 1) ∧
    (buildTopo wG3 2).Nodup ∧
    (∀ v, v ∈ buildTopo wG3 2 ↔ Reaches wG3 2 v) ∧
    (∀ u ∈ buildTopo wG3 2, ∀ c ∈ prevOf wG3 u,
      (buildTopo wG3 2).indexOf c < (buildTopo wG3 2).indexOf u) ∧
    (buildTopo wG3 2).reverse.head? = some 2) :=
  ⟨by decide, C2_backward_pass_structure mR wG3 2 (by decide)⟩

/-- C9: termination and work bound of the backward pass on any well-formed
(acyclic) graph: the fuelled embedding of the source's recursion is
independent of the fuel once it exceeds the root index (the recursion
terminates), and the visited set makes the traversal process each node at
most once — the post-order has no duplicates, contains only nodes reachable
from the root, and its length is bounded by `root + 1`. -/
theorem C9_backward_terminates (g : Graph α) (root : Nat) (hwf : WF g) :
    (∀ fuel, root < fuel →
      dfsVisit (prevOf g) fuel root ([], []) =
        dfsVisit (prevOf g) (root + 1) root ([], [])) ∧
    (buildTopo g root).Nodup ∧
    (∀ v ∈ buildTopo g root, Reaches g root v) ∧
    (buildTopo g root).length ≤ root + 1 := by
  obtain ⟨hnd, hiff, htake⟩ := buildTopo_spec g root hwf
  have hch := WF_prev_lt g hwf
  refine ⟨?_, hnd, fun v hv => (hiff v).mp hv, ?_⟩
  · intro fuel hf
    exact dfsVisit_fuel (prevOf g) hch fuel root (root + 1) ([], []) hf
      (Nat.lt_succ_self root)
  · have hsub : ∀ v ∈ buildTopo g root, v < root + 1 := fun v hv =>
      Nat.lt_succ_iff.mpr (reachch_le (prevOf g) hch ((hiff v).mp hv))
    have h1 : (buildTopo g root).toFinset.card = (buildTopo g root).length :=
      List.toFinset_card_of_nodup hnd
    have h2 : (buildTopo g root).toFinset ⊆ Finset.range (root + 1) := by
      intro v hv
      rw [List.mem_toFinset] at hv
      exact Finset.mem_range.mpr (hsub v hv)
    calc (buildTopo g root).length = (buildTopo g root).toFinset.card := h1.symm
    _ ≤ (Finset.range (root + 1)).card := Finset.card_le_card h2
    _ = root + 1 := Finset.card_range _

/-- Witness for C9 on the concrete graph `y = x*x + x` with `x = 3.0`. -/
theorem C9_backward_terminates_witness :
    WF wG3 ∧
    ((∀ fuel, 2 < fuel →
      dfsVisit (prevOf wG3) fuel 2 ([], []) =
        dfsVisit (prevOf wG3) (2 + 1) 2 ([], [])) ∧
    (buildTopo wG3 2).Nodup ∧
    (∀ v ∈ buildTopo wG3 2, Reaches wG3 2 v) ∧
    (buildTopo wG3 2).length ≤ 2 + 1) :=
  ⟨by decide, C9_backward_terminates wG3 2 (by decide)⟩

/-- C10: `backward()` reassigns only the root's gradient (the seed
`self.grad = 1.0`); every other gradient is only ever incremented, so
gradients accumulate across successive passes.  For `y = x + 1.0` with leaf
`x` (any value `c`), one `y.backward()` leaves `x.grad = 1` and a second
call leaves `x.grad = 2`, while `y.grad` is `1` after each pass. -/
theorem C10_grad_accumulates_across_passes (m : FloatOps ℚ) (c : ℚ) :
    gradOf (backward m (addV (mkValue ([] : Graph ℚ) c).1 0 (Arg.const 1)).1 2) 0 = 1 ∧
    gradOf (backward m (backward m
      (addV (mkValue ([] : Graph ℚ) c).1 0 (Arg.const 1)).1 2) 2) 0 = 2 ∧
    gradOf (backward m (backward m
      (addV (mkValue ([] : Graph ℚ) c).1 0 (Arg.const 1)).1 2) 2) 2 = 1 := by
  refine ⟨?_, ?_, ?_⟩ <;>
    norm_num [backward, buildTopo, dfsVisit, runBwd, setGrad, updGrad,
      addV, mkValue, pushNode, coerceArg, prevPair, dataOf, gradOf, prevOf,
      nd, defaultNode]

end Micrograd
